import Mathlib

/-!
Verification of the PyRTL register-transfer-level description and simulation
core against its specification.  The repository ships only consumer code (the
one-bit adder example `examples/example1-combologic.py`, the SurfNOC research
code `research/surfnoc/surfnoc.py`, and a test harness); the core library
(WireVector, Input, Output, Register, MemBlock, Simulation, SimulationTrace)
is not part of the sources, so the core semantics below are modelled from the
specification and the consumer code is translated on top of them.
-/

namespace PyRTL

/-- Modelled from the spec: the missing core's wraparound rule — "any
arithmetic/value that does not fit its declared bitwidth is truncated per
mask, never an error".  `truncate w v` keeps the low `w` bits of `v`. -/
def truncate (w v : Nat) : Nat := v % 2 ^ w

/-- Modelled from the spec: a WireVector value as carried during evaluation —
a declared bitwidth together with the concrete value it holds this cycle. -/
structure WV where
  width : Nat
  val : Nat
  deriving DecidableEq, Repr

/-- Modelled from the spec: bitwise AND — "output width = max of input widths;
narrower inputs are zero-extended", value truncated to the declared width. -/
def wvAnd (x y : WV) : WV :=
  ⟨max x.width y.width, truncate (max x.width y.width) (x.val &&& y.val)⟩

/-- Modelled from the spec: bitwise OR, same width rule as AND. -/
def wvOr (x y : WV) : WV :=
  ⟨max x.width y.width, truncate (max x.width y.width) (x.val ||| y.val)⟩

/-- Modelled from the spec: bitwise XOR, same width rule as AND. -/
def wvXor (x y : WV) : WV :=
  ⟨max x.width y.width, truncate (max x.width y.width) (x.val ^^^ y.val)⟩

/-- Modelled from the spec: addition — "output width = max(input widths) + 1
(to hold carry-out), inputs zero-extended", unsigned addition truncated to the
inferred width. -/
def wvAdd (x y : WV) : WV :=
  ⟨max x.width y.width + 1, truncate (max x.width y.width + 1) (x.val + y.val)⟩

/-- Modelled from the spec: equality comparison — "output width = 1". -/
def wvEq (x y : WV) : WV := ⟨1, if x.val = y.val then 1 else 0⟩

/-- A wire value is in range when its value fits its declared bitwidth. -/
def WV.InRange (x : WV) : Prop := x.val < 2 ^ x.width

/-- The one-bit adder of `examples/example1-combologic.py`: the `sum` output
is driven by `a ^ b ^ c` (line 81), on three 1-bit inputs. -/
def adderSum (a b c : Nat) : WV :=
  wvXor (wvXor ⟨1, a⟩ ⟨1, b⟩) ⟨1, c⟩

/-- The one-bit adder of `examples/example1-combologic.py`: `carry_out` is
driven by `temp1 | temp2` (line 74) where `temp1 = a & b` (line 50) and
`temp2 = (a & c) | (b & c)` (lines 57-59). -/
def adderCarry (a b c : Nat) : WV :=
  wvOr (wvAnd ⟨1, a⟩ ⟨1, b⟩) (wvOr (wvAnd ⟨1, a⟩ ⟨1, c⟩) (wvAnd ⟨1, b⟩ ⟨1, c⟩))

/-- Modelled from the spec: the simulation engine records, for each traced
signal, one value per cycle; for a purely combinational circuit the value at
cycle `k` is the circuit evaluated on the inputs supplied at cycle `k`. -/
def combTrace (f : Nat → Nat → Nat → WV) (ia ib ic : Nat → Nat) (k : Nat) : Nat :=
  (f (ia k) (ib k) (ic k)).val

/-- Modelled from the spec: the commit rule for a register whose `next` input
is its own current value plus one — the `next` expression `r + 1` is one bit
wider than `r`, and connecting it back to the width-`w` register truncates per
mask, so the value latched at the cycle boundary is `(v + 1) mod 2^w`. -/
def counterNext (w v : Nat) : Nat := truncate w (wvAdd ⟨w, v⟩ ⟨1, 1⟩).val

/-- Modelled from the spec: the register state at the start of cycle `k`, for
a width-`w` counter register starting at 0: registers hold their value for the
whole cycle and latch the new value only at the cycle boundary. -/
def counterState (w : Nat) : Nat → Nat
  | 0 => 0
  | k + 1 => counterNext w (counterState w k)

/-- Modelled from the spec: the trace of the counter register over `n` cycles —
the value recorded at cycle `k` is the state before cycle `k`'s commit. -/
def counterTrace (w n : Nat) : List Nat :=
  (List.range n).map (counterState w)

theorem truncate_lt (w v : Nat) : truncate w v < 2 ^ w :=
  Nat.mod_lt _ (Nat.pos_pow_of_pos w (by norm_num))

theorem truncate_eq_of_lt {w v : Nat} (h : v < 2 ^ w) : truncate w v = v :=
  Nat.mod_eq_of_lt h

theorem counterState_lt (w : Nat) (k : Nat) (hk : 0 < k) :
    counterState w k < 2 ^ w := by
  cases k with
  | zero => omega
  | succ k => exact truncate_lt _ _

theorem counterState_eq_mod (w k : Nat) : counterState w k = k % 2 ^ w := by
  induction k with
  | zero => simp [counterState]
  | succ k ih =>
      have hpos : 0 < 2 ^ w := Nat.pos_pow_of_pos w (by norm_num)
      have hlt : k % 2 ^ w + 1 < 2 ^ (max w 1 + 1) := by
        have h2 : 2 ^ w ≤ 2 ^ max w 1 :=
          Nat.pow_le_pow_right (by norm_num) (le_max_left _ _)
        have h3 : k % 2 ^ w < 2 ^ w := Nat.mod_lt _ hpos
        have h4 : 2 ^ (max w 1 + 1) = 2 ^ max w 1 * 2 := by ring
        omega
      simp only [counterState, counterNext, wvAdd, truncate, ih]
      rw [Nat.mod_eq_of_lt hlt]
      exact Nat.mod_add_mod k (2 ^ w) 1

/-- Modelled from the spec: the missing MemBlock commit rule — the write port
(address `a`, data `d`, enable `en`) is committed into storage at the cycle
boundary; a write whose enable is 0 is a no-op. -/
def commitWrite (store : Nat → Nat) (a d en : Nat) : Nat → Nat :=
  if en = 1 then fun x => if x = a then d else store x else store

/-- Modelled from the spec: a MemBlock read port with same-cycle forwarding —
if an enabled write to the same address occurs in the same cycle, the read
returns the value being written that cycle, otherwise the stored value. -/
def readPort (store : Nat → Nat) (a d en ra : Nat) : Nat :=
  if en = 1 ∧ ra = a then d else store ra

/-- Modelled from the spec: MemBlock storage after a sequence of per-cycle
write-port events (address, data, enable), each committed at its cycle
boundary, starting from storage that is "sparse, default 0". -/
def runWritesFrom (store : Nat → Nat) (ws : List (Nat × Nat × Nat)) : Nat → Nat :=
  ws.foldl (fun s w => commitWrite s w.1 w.2.1 w.2.2) store

/-- MemBlock storage after a sequence of write events from the initial
all-zero storage. -/
def runWrites (ws : List (Nat × Nat × Nat)) : Nat → Nat :=
  runWritesFrom (fun _ => 0) ws

/-- The data of the most recent enabled write to address `x` in the event
sequence, if any — the spec side of "the value stored by the most recent
prior write". -/
def lastWrite (ws : List (Nat × Nat × Nat)) (x : Nat) : Option Nat :=
  (ws.reverse.find? (fun w => w.2.2 == 1 && w.1 == x)).map (fun w => w.2.1)

theorem runWritesFrom_eq_lastWrite (ws : List (Nat × Nat × Nat))
    (store : Nat → Nat) (x : Nat) :
    runWritesFrom store ws x = (lastWrite ws x).getD (store x) := by
  induction ws generalizing store with
  | nil => simp [runWritesFrom, lastWrite]
  | cons w ws ih =>
      simp only [runWritesFrom, List.foldl_cons] at *
      rw [ih]
      simp only [lastWrite, List.reverse_cons, List.find?_append]
      cases hfind : ws.reverse.find? (fun w => w.2.2 == 1 && w.1 == x) with
      | some v => simp [hfind, Option.or]
      | none =>
          simp only [hfind, Option.or, commitWrite, List.find?]
          by_cases hen : w.2.2 = 1
          · by_cases hx : x = w.1
            · simp [hen, hx]
            · have hbx : (w.1 == x) = false := beq_eq_false_iff_ne.mpr (Ne.symm hx)
              simp [hen, hx, hbx]
          · have : (w.2.2 == 1) = false := by simp [hen]
            simp [hen, this]

/-- C4: for every memory read port, if an enabled write to the same address
occurs in the same cycle, the read returns the value being written that cycle
(forwarding); otherwise it returns the value stored by the most recent prior
enabled write, or 0 if the address was never written; and a write whose
enable input is 0 leaves the memory storage unchanged. -/
theorem mem_read_contract (ws : List (Nat × Nat × Nat)) (a d en ra : Nat) :
    readPort (runWrites ws) a d en ra =
      (if en = 1 ∧ ra = a then d else (lastWrite ws ra).getD 0) ∧
    (∀ store a2 d2, commitWrite store a2 d2 0 = store) := by
  constructor
  · by_cases h : en = 1 ∧ ra = a
    · simp [readPort, h]
    · rw [readPort, if_neg h, if_neg h]
      simpa [runWrites] using runWritesFrom_eq_lastWrite ws (fun _ => 0) ra
  · intro store a2 d2
    simp [commitWrite]

/-- Modelled from the spec: bitwise NOT — output width equals the input
width, value is the complement truncated to that width. -/
def wvNot (x : WV) : WV :=
  ⟨x.width, truncate x.width ((2 ^ x.width - 1) ^^^ x.val)⟩

/-- Modelled from the spec: unsigned comparison `>=` — like equality it is a
comparison, so "output width = 1". -/
def wvGe (x y : WV) : WV := ⟨1, if y.val ≤ x.val then 1 else 0⟩

/-- Modelled from the spec: subtraction is not in the spec's operator list but
is used by `surfnoc_buffer`; modelled as two's-complement wraparound at width
max(input widths)+1, consistent with the rule that values are "truncated per
mask, never an error". -/
def wvSub (x y : WV) : WV :=
  ⟨max x.width y.width + 1,
   truncate (max x.width y.width + 1) (x.val + 2 ^ (max x.width y.width + 1) - y.val)⟩

/-- The sequential state of `surfnoc_buffer` (`research/surfnoc/surfnoc.py`
lines 81-85): the `head` and `tail` pointer registers of width `addrwidth`,
the `count` register of width `addrwidth+1`, and the MemBlock storage. -/
structure BufState where
  head : Nat
  tail : Nat
  count : Nat
  mem : Nat → Nat

/-- The combinational wires of `surfnoc_buffer` in one cycle. -/
structure BufComb where
  full : Nat
  do_write : Nat
  empty : Nat
  do_read : Nat
  read_output : Nat

/-- The combinational logic of `surfnoc_buffer` (lines 87-90 and 98):
`full = mux(count >= 2**addrwidth, 1, 0)`,
`do_write = mux(full, 0, write_enable)`,
`empty = (~do_write) & (count == 0)`,
`do_read = mux(empty, 0, read_enable)`, and
`read_output = mux(do_read & do_write & (head == tail), data_in,
buffer_memory[tail])`, the memory read port forwarding a same-cycle enabled
write per the spec. -/
def bufComb (aw : Nat) (st : BufState) (data_in we re : Nat) : BufComb :=
  let fullv := (wvGe ⟨aw + 1, st.count⟩ ⟨aw + 1, 2 ^ aw⟩).val
  let do_writev := if fullv = 1 then 0 else we
  let emptyv := (wvAnd (wvNot ⟨1, do_writev⟩) (wvEq ⟨aw + 1, st.count⟩ ⟨aw + 1, 0⟩)).val
  let do_readv := if emptyv = 1 then 0 else re
  let collide := (wvAnd (wvAnd ⟨1, do_readv⟩ ⟨1, do_writev⟩)
                    (wvEq ⟨aw, st.head⟩ ⟨aw, st.tail⟩)).val
  let readout := if collide = 1 then data_in
                 else readPort st.mem st.head data_in do_writev st.tail
  ⟨fullv, do_writev, emptyv, do_readv, readout⟩

/-- One simulated cycle of `surfnoc_buffer` (lines 92-96): the enabled memory
write `buffer_memory[head] <<= EnabledWrite(data_in, do_write)` and the
register commits `head.next <<= mux(do_write, head+1, head)`,
`tail.next <<= mux(do_read, tail+1, tail)`,
`count.next <<= count + do_write - do_read`, each truncated to its register
width at the cycle boundary. -/
def bufStep (aw : Nat) (st : BufState) (data_in we re : Nat) : BufState :=
  let c := bufComb aw st data_in we re
  { head := truncate aw (if c.do_write = 1 then (wvAdd ⟨aw, st.head⟩ ⟨1, 1⟩).val else st.head)
    tail := truncate aw (if c.do_read = 1 then (wvAdd ⟨aw, st.tail⟩ ⟨1, 1⟩).val else st.tail)
    count := truncate (aw + 1)
      (wvSub (wvAdd ⟨aw + 1, st.count⟩ ⟨1, c.do_write⟩) ⟨1, c.do_read⟩).val
    mem := commitWrite st.mem st.head data_in c.do_write }

/-- Modelled from the spec: registers start a simulation holding 0 and the
memory storage is "sparse, default 0". -/
def bufInit : BufState := ⟨0, 0, 0, fun _ => 0⟩

/-- The buffer state after a list of per-cycle stimuli
`(data_in, write_enable, read_enable)`. -/
def bufRun (aw : Nat) (stimuli : List (Nat × Nat × Nat)) : BufState :=
  stimuli.foldl (fun st s => bufStep aw st s.1 s.2.1 s.2.2) bufInit

/-- The reachable-state invariant of `surfnoc_buffer`: the pointers fit their
registers, the count never exceeds the buffer capacity, and the write pointer
is the read pointer advanced by the count, modulo the buffer size. -/
def BufInv (aw : Nat) (st : BufState) : Prop :=
  st.head < 2 ^ aw ∧ st.tail < 2 ^ aw ∧ st.count ≤ 2 ^ aw ∧
  st.head = (st.tail + st.count) % 2 ^ aw

theorem bufComb_enable_spec (aw : Nat) (st : BufState) (d we re : Nat)
    (hc : st.count ≤ 2 ^ aw) (hwe : we < 2) (hre : re < 2) :
    (bufComb aw st d we re).do_write = (if st.count = 2 ^ aw then 0 else we) ∧
    (bufComb aw st d we re).do_read =
      (if (if st.count = 2 ^ aw then 0 else we) = 0 ∧ st.count = 0 then 0 else re) := by
  have hpos : 0 < 2 ^ aw := Nat.pos_pow_of_pos _ (by norm_num)
  have h0 : ¬ (0 = 2 ^ aw) := by omega
  have hge : (2 ^ aw ≤ st.count) = (st.count = 2 ^ aw) := by
    apply propext; constructor <;> intro <;> omega
  have hwe2 : we = 0 ∨ we = 1 := by omega
  have hre2 : re = 0 ∨ re = 1 := by omega
  by_cases hfull : st.count = 2 ^ aw <;> by_cases hzero : st.count = 0 <;>
    rcases hwe2 with h | h <;> rcases hre2 with h2 | h2 <;>
    simp [bufComb, wvGe, wvAnd, wvNot, wvEq, truncate, hfull, hzero, h, h2, hge, h0]

theorem bufStep_preserves (aw : Nat) (st : BufState) (d we re : Nat)
    (hinv : BufInv aw st) (hwe : we < 2) (hre : re < 2) :
    BufInv aw (bufStep aw st d we re) ∧
    (bufComb aw st d we re).do_read ≤ st.count + (bufComb aw st d we re).do_write ∧
    (bufStep aw st d we re).count =
      st.count + (bufComb aw st d we re).do_write - (bufComb aw st d we re).do_read := by
  obtain ⟨hh, ht, hc, hrel⟩ := hinv
  obtain ⟨hdw, hdr⟩ := bufComb_enable_spec aw st d we re hc hwe hre
  set dw := (bufComb aw st d we re).do_write with hdwdef
  set dr := (bufComb aw st d we re).do_read with hdrdef
  have hP : 0 < 2 ^ aw := Nat.pos_pow_of_pos _ (by norm_num)
  have e1 : (2 : Nat) ^ (aw + 1) = 2 * 2 ^ aw := by ring
  have e3 : (2 : Nat) ^ (aw + 3) = 8 * 2 ^ aw := by ring
  have hdw1 : dw ≤ 1 := by
    rw [hdw]; split_ifs <;> omega
  have hdwlt : dw = 1 → st.count < 2 ^ aw := by
    intro h1
    rw [hdw] at h1
    by_cases hq : st.count = 2 ^ aw
    · rw [if_pos hq] at h1; omega
    · omega
  have hdr1 : dr ≤ 1 := by
    rw [hdr]; split_ifs <;> omega
  have hunder : dr ≤ st.count + dw := by
    rw [hdr, hdw]
    split_ifs <;> omega
  -- the committed count: the adder output is exact, the subtraction does not
  -- wrap, and the truncation to width aw+1 is the identity
  have hmaxa : max (aw + 1) 1 + 1 = aw + 2 := by omega
  have hmaxb : max (aw + 2) 1 + 1 = aw + 3 := by omega
  have hcount : (bufStep aw st d we re).count = st.count + dw - dr := by
    show truncate (aw + 1) (wvSub (wvAdd ⟨aw + 1, st.count⟩ ⟨1, dw⟩) ⟨1, dr⟩).val
        = st.count + dw - dr
    simp only [wvAdd, wvSub, truncate, hmaxa, hmaxb]
    have hx : (st.count + dw) % 2 ^ (aw + 2) = st.count + dw := by
      apply Nat.mod_eq_of_lt
      have : (2 : Nat) ^ (aw + 2) = 4 * 2 ^ aw := by ring
      omega
    rw [hx]
    have h1 : st.count + dw + 2 ^ (aw + 3) - dr = 2 ^ (aw + 3) + (st.count + dw - dr) := by
      omega
    have hm1 : (st.count + dw - dr) % 2 ^ (aw + 3) = st.count + dw - dr :=
      Nat.mod_eq_of_lt (by omega)
    have hm2 : (st.count + dw - dr) % 2 ^ (aw + 1) = st.count + dw - dr :=
      Nat.mod_eq_of_lt (by omega)
    rw [h1, Nat.add_mod_left, hm1, hm2]
  have hmaxc : aw + 1 ≤ max aw 1 + 1 := by omega
  have hmpow : (2 : Nat) ^ (aw + 1) ≤ 2 ^ (max aw 1 + 1) :=
    Nat.pow_le_pow_right (by norm_num) hmaxc
  have hhead : (bufStep aw st d we re).head = (st.head + dw) % 2 ^ aw := by
    show truncate aw (if dw = 1 then (wvAdd ⟨aw, st.head⟩ ⟨1, 1⟩).val else st.head)
        = (st.head + dw) % 2 ^ aw
    simp only [wvAdd, truncate]
    have hmod : (st.head + 1) % 2 ^ (max aw 1 + 1) = st.head + 1 :=
      Nat.mod_eq_of_lt (lt_of_lt_of_le (by omega) hmpow)
    by_cases hq : dw = 1
    · simp [hq, hmod]
    · have : dw = 0 := by omega
      simp [hq, this]
  have htail : (bufStep aw st d we re).tail = (st.tail + dr) % 2 ^ aw := by
    show truncate aw (if dr = 1 then (wvAdd ⟨aw, st.tail⟩ ⟨1, 1⟩).val else st.tail)
        = (st.tail + dr) % 2 ^ aw
    simp only [wvAdd, truncate]
    have hmod : (st.tail + 1) % 2 ^ (max aw 1 + 1) = st.tail + 1 :=
      Nat.mod_eq_of_lt (lt_of_lt_of_le (by omega) hmpow)
    by_cases hq : dr = 1
    · simp [hq, hmod]
    · have : dr = 0 := by omega
      simp [hq, this]
  refine ⟨⟨?_, ?_, ?_, ?_⟩, hunder, hcount⟩
  · rw [hhead]; exact Nat.mod_lt _ hP
  · rw [htail]; exact Nat.mod_lt _ hP
  · rw [hcount]
    rcases Nat.lt_or_ge st.count (2 ^ aw) with hq | hq
    · omega
    · have hdw0 : dw = 0 := by rw [hdw]; split <;> omega
      omega
  · rw [hhead, htail, hcount]
    symm
    calc ((st.tail + dr) % 2 ^ aw + (st.count + dw - dr)) % 2 ^ aw
        = (st.tail + dr + (st.count + dw - dr)) % 2 ^ aw := Nat.mod_add_mod _ _ _
      _ = (st.tail + st.count + dw) % 2 ^ aw := by
          exact congrArg (fun z => z % 2 ^ aw) (by omega)
      _ = ((st.tail + st.count) % 2 ^ aw + dw) % 2 ^ aw := (Nat.mod_add_mod _ _ _).symm
      _ = (st.head + dw) % 2 ^ aw := by rw [hrel]

theorem bufInit_inv (aw : Nat) : BufInv aw bufInit := by
  have hP : 0 < 2 ^ aw := Nat.pos_pow_of_pos _ (by norm_num)
  exact ⟨hP, hP, Nat.zero_le _, by simp [bufInit]⟩

theorem bufFold_inv (aw : Nat) (l : List (Nat × Nat × Nat)) :
    ∀ st : BufState, BufInv aw st → (∀ s ∈ l, s.2.1 < 2 ∧ s.2.2 < 2) →
      BufInv aw (l.foldl (fun st s => bufStep aw st s.1 s.2.1 s.2.2) st) := by
  induction l with
  | nil => exact fun st h _ => h
  | cons s l ih =>
      intro st hst hb
      simp only [List.foldl_cons]
      refine ih _ ?_ (fun t ht => hb t (by simp [ht]))
      exact (bufStep_preserves aw st s.1 s.2.1 s.2.2 hst
        (hb s (by simp)).1 (hb s (by simp)).2).1

theorem bufRun_inv (aw : Nat) (stimuli : List (Nat × Nat × Nat))
    (h : ∀ s ∈ stimuli, s.2.1 < 2 ∧ s.2.2 < 2) :
    BufInv aw (bufRun aw stimuli) :=
  bufFold_inv aw stimuli bufInit (bufInit_inv aw) h

/-- C5: in the circular buffer built by `surfnoc_buffer`, for every sequence
of write_enable/read_enable stimuli over any number of cycles starting from
count = 0, the count register never exceeds `2^addrwidth` (after any prefix
of the run the stored count is at most `2^addrwidth`, the full flag gating
writes) and never goes below 0 (at every executed step the decrement
`do_read` never exceeds `count + do_write`, the empty condition gating
reads, so the committed count `count + do_write - do_read` never wraps). -/
theorem buffer_count_bounded (aw n : Nat) (stimuli : List (Nat × Nat × Nat))
    (h : ∀ s ∈ stimuli, s.2.1 < 2 ∧ s.2.2 < 2) :
    (bufRun aw (stimuli.take n)).count ≤ 2 ^ aw ∧
    (∀ s, stimuli[n]? = some s →
      (bufComb aw (bufRun aw (stimuli.take n)) s.1 s.2.1 s.2.2).do_read ≤
        (bufRun aw (stimuli.take n)).count +
          (bufComb aw (bufRun aw (stimuli.take n)) s.1 s.2.1 s.2.2).do_write) := by
  have hpre : ∀ s ∈ stimuli.take n, s.2.1 < 2 ∧ s.2.2 < 2 :=
    fun s hs => h s (List.take_subset n stimuli hs)
  have hinv := bufRun_inv aw (stimuli.take n) hpre
  refine ⟨hinv.2.2.1, ?_⟩
  intro s hs
  have hsmem : s ∈ stimuli := by
    have := List.getElem?_eq_some_iff.mp hs
    obtain ⟨hlt, hget⟩ := this
    exact hget ▸ List.getElem_mem hlt
  exact (bufStep_preserves aw _ s.1 s.2.1 s.2.2 hinv (h s hsmem).1 (h s hsmem).2).2.1

/-- Witness for C5: after the stimulus list [(3,1,1),(4,0,1)] with prefix
length 1 and address width 1, the count is bounded and the step is gated. -/
theorem buffer_count_bounded_witness :
    (bufRun 1 (([(3,1,1),(4,0,1)] : List (Nat × Nat × Nat)).take 1)).count ≤ 2 ^ 1 ∧
    (∀ s, ([(3,1,1),(4,0,1)] : List (Nat × Nat × Nat))[1]? = some s →
      (bufComb 1 (bufRun 1 (([(3,1,1),(4,0,1)] : List (Nat × Nat × Nat)).take 1))
          s.1 s.2.1 s.2.2).do_read ≤
        (bufRun 1 (([(3,1,1),(4,0,1)] : List (Nat × Nat × Nat)).take 1)).count +
          (bufComb 1 (bufRun 1 (([(3,1,1),(4,0,1)] : List (Nat × Nat × Nat)).take 1))
            s.1 s.2.1 s.2.2).do_write) :=
  buffer_count_bounded 1 1 [(3,1,1),(4,0,1)] (by decide)

/-- C10: in `surfnoc_buffer`, when the buffer is empty (count = 0, reached by
any stimulus sequence) and both write_enable and read_enable are 1 in the
same cycle, the read is granted anyway: `do_read` (the valid output) is 1,
`data_out` equals the incoming `data_in` (bypassing the memory via the
`head == tail` mux), and the count register remains 0 after the cycle's
commit. -/
theorem buffer_bypass_when_empty (aw : Nat) (stimuli : List (Nat × Nat × Nat))
    (h : ∀ s ∈ stimuli, s.2.1 < 2 ∧ s.2.2 < 2)
    (hempty : (bufRun aw stimuli).count = 0) (d : Nat) :
    (bufComb aw (bufRun aw stimuli) d 1 1).do_read = 1 ∧
    (bufComb aw (bufRun aw stimuli) d 1 1).read_output = d ∧
    (bufStep aw (bufRun aw stimuli) d 1 1).count = 0 := by
  have hP : 0 < 2 ^ aw := Nat.pos_pow_of_pos _ (by norm_num)
  obtain ⟨hh, ht, hc, hrel⟩ := bufRun_inv aw stimuli h
  set st := bufRun aw stimuli with hstdef
  have hht : st.head = st.tail := by
    rw [hrel, hempty]
    simpa using Nat.mod_eq_of_lt ht
  have h0 : ¬ (st.count = 2 ^ aw) := by omega
  obtain ⟨hdw, hdr⟩ :=
    bufComb_enable_spec aw st d 1 1 (by omega) (by omega) (by omega)
  have hdw1 : (bufComb aw st d 1 1).do_write = 1 := by rw [hdw, if_neg h0]
  have hdr1 : (bufComb aw st d 1 1).do_read = 1 := by
    rw [hdr, if_neg h0]
    simp
  have hng : ¬ (2 ^ aw ≤ st.count) := by omega
  refine ⟨hdr1, ?_, ?_⟩
  · simp [bufComb, wvGe, wvAnd, wvNot, wvEq, truncate, hempty, hht, hng]
  · have := (bufStep_preserves aw st d 1 1 ⟨hh, ht, hc, hrel⟩
      (by omega) (by omega)).2.2
    rw [this, hdw1, hdr1, hempty]

/-- Witness for C10: on the empty stimulus list with address width 1 the
buffer has count 0, and a simultaneous write and read of value 9 grants the
read, bypasses the memory, and leaves the count at 0. -/
theorem buffer_bypass_when_empty_witness :
    (bufComb 1 (bufRun 1 []) 9 1 1).do_read = 1 ∧
    (bufComb 1 (bufRun 1 []) 9 1 1).read_output = 9 ∧
    (bufStep 1 (bufRun 1 []) 9 1 1).count = 0 :=
  buffer_bypass_when_empty 1 [] (by simp) (by decide) 9

/-- C1: building the one-bit full adder (sum = a xor b xor c, carry =
ab + ac + bc) and simulating it, for every cycle and every combination of
1-bit input values a, b, c, the traced value of `sum` equals `(a+b+c) & 1`
and the traced value of `carry_out` equals `(a+b+c) >> 1`: the circuit
reproduces the truth table of binary addition of three 1-bit operands. -/
theorem adder_trace_correct (ia ib ic : Nat → Nat) (k : Nat)
    (ha : ia k < 2) (hb : ib k < 2) (hc : ic k < 2) :
    combTrace adderSum ia ib ic k = (ia k + ib k + ic k) &&& 1 ∧
    combTrace adderCarry ia ib ic k = (ia k + ib k + ic k) >>> 1 := by
  have ha2 : ia k = 0 ∨ ia k = 1 := by omega
  have hb2 : ib k = 0 ∨ ib k = 1 := by omega
  have hc2 : ic k = 0 ∨ ic k = 1 := by omega
  rcases ha2 with h | h <;> rcases hb2 with h2 | h2 <;> rcases hc2 with h3 | h3 <;>
    simp only [combTrace, h, h2, h3] <;> decide

/-- Witness for C1: on the concrete stimulus a = 1, b = 1, c = 0 at cycle 0
the adder traces sum = 0 and carry_out = 1. -/
theorem adder_trace_correct_witness :
    combTrace adderSum (fun _ => 1) (fun _ => 1) (fun _ => 0) 0 = (1 + 1 + 0) &&& 1 ∧
    combTrace adderCarry (fun _ => 1) (fun _ => 1) (fun _ => 0) 0 = (1 + 1 + 0) >>> 1 :=
  adder_trace_correct (fun _ => 1) (fun _ => 1) (fun _ => 0) 0
    (by decide) (by decide) (by decide)

/-- C2: each operator on in-range concrete inputs produces the corresponding
bitwise or arithmetic result at the inferred output width (bitwise operators
at width max(w1,w2), exact since the inputs fit; addition at width
max(w1,w2)+1, exact since the carry is captured; in particular ADD of two
1-bit values 1 and 1 is the 2-bit value 2); truncation always yields a value
fitting the declared width and never an error, and the width-`w` counter
register whose next value is itself plus one wraps modulo `2^w`. -/
theorem op_semantics (w1 w2 v1 v2 : Nat) (h1 : v1 < 2 ^ w1) (h2 : v2 < 2 ^ w2) :
    wvAnd ⟨w1, v1⟩ ⟨w2, v2⟩ = ⟨max w1 w2, v1 &&& v2⟩ ∧
    wvOr ⟨w1, v1⟩ ⟨w2, v2⟩ = ⟨max w1 w2, v1 ||| v2⟩ ∧
    wvXor ⟨w1, v1⟩ ⟨w2, v2⟩ = ⟨max w1 w2, v1 ^^^ v2⟩ ∧
    wvAdd ⟨w1, v1⟩ ⟨w2, v2⟩ = ⟨max w1 w2 + 1, v1 + v2⟩ ∧
    wvAdd ⟨1, 1⟩ ⟨1, 1⟩ = ⟨2, 2⟩ ∧
    (∀ w v, truncate w v < 2 ^ w) ∧
    (∀ k, counterState w1 k = k % 2 ^ w1) := by
  have hmax : (2 : Nat) ^ w1 ≤ 2 ^ max w1 w2 :=
    Nat.pow_le_pow_right (by norm_num) (le_max_left _ _)
  have hmax2 : (2 : Nat) ^ w2 ≤ 2 ^ max w1 w2 :=
    Nat.pow_le_pow_right (by norm_num) (le_max_right _ _)
  have hv1 : v1 < 2 ^ max w1 w2 := lt_of_lt_of_le h1 hmax
  have hv2 : v2 < 2 ^ max w1 w2 := lt_of_lt_of_le h2 hmax2
  refine ⟨?_, ?_, ?_, ?_, by decide, truncate_lt, counterState_eq_mod w1⟩
  · have hb : v1 &&& v2 < 2 ^ max w1 w2 := Nat.bitwise_lt hv1 hv2
    simp [wvAnd, truncate_eq_of_lt hb]
  · have hb : v1 ||| v2 < 2 ^ max w1 w2 := Nat.bitwise_lt hv1 hv2
    simp [wvOr, truncate_eq_of_lt hb]
  · have hb : v1 ^^^ v2 < 2 ^ max w1 w2 := Nat.bitwise_lt hv1 hv2
    simp [wvXor, truncate_eq_of_lt hb]
  · have hs : v1 + v2 < 2 ^ (max w1 w2 + 1) := by
      have : (2 : Nat) ^ (max w1 w2 + 1) = 2 ^ max w1 w2 * 2 := by ring
      omega
    simp [wvAdd, truncate_eq_of_lt hs]

/-- Witness for C2: the operator semantics at widths 1 and 2, values 1 and 3. -/
theorem op_semantics_witness :
    wvAnd ⟨1, 1⟩ ⟨2, 3⟩ = ⟨max 1 2, 1 &&& 3⟩ ∧
    wvOr ⟨1, 1⟩ ⟨2, 3⟩ = ⟨max 1 2, 1 ||| 3⟩ ∧
    wvXor ⟨1, 1⟩ ⟨2, 3⟩ = ⟨max 1 2, 1 ^^^ 3⟩ ∧
    wvAdd ⟨1, 1⟩ ⟨2, 3⟩ = ⟨max 1 2 + 1, 1 + 3⟩ ∧
    wvAdd ⟨1, 1⟩ ⟨1, 1⟩ = ⟨2, 2⟩ ∧
    (∀ w v, truncate w v < 2 ^ w) ∧
    (∀ k, counterState 1 k = k % 2 ^ 1) :=
  op_semantics 1 2 1 3 (by decide) (by decide)

/-- Counterexample to C3 as stated: a width-1 register whose next value is
itself plus one, stepped for 3 cycles, traces `[0, 1, 0]` (it wraps modulo
`2^1` at cycle 2), not `[0, 1, 2]`. -/
theorem counter_trace_counterexample :
    counterTrace 1 3 ≠ List.range 3 := by decide

/-- C3 (amended): provided the cycle count does not exceed `2^w`, the trace of
the width-`w` counter register over `n` cycles is exactly `0, 1, ..., n-1`;
the value traced at cycle `k` is the register state before cycle `k`'s commit,
and the commit of cycle `k` becomes visible exactly at cycle `k+1`. -/
theorem counter_trace_eq_range (w n : Nat) (h : n ≤ 2 ^ w) :
    counterTrace w n = List.range n ∧
    (∀ k, (counterTrace w n).getD k 0 = counterState w k ∨ n ≤ k) ∧
    (∀ k, counterState w (k + 1) = truncate w (counterState w k + 1)) := by
  refine ⟨?_, ?_, ?_⟩
  · apply List.ext_getElem
    · simp [counterTrace]
    · intro i hi _
      simp only [counterTrace, List.getElem_map, List.getElem_range]
      have hlen : i < n := by simpa [counterTrace] using hi
      rw [counterState_eq_mod]
      exact Nat.mod_eq_of_lt (lt_of_lt_of_le hlen h)
  · intro k
    by_cases hk : k < n
    · left
      rw [List.getD_eq_getElem?_getD]
      have : k < (counterTrace w n).length := by simpa [counterTrace]
      rw [List.getElem?_eq_getElem this]
      simp [counterTrace]
    · right; omega
  · intro k
    have hp : 0 < 2 ^ max w 1 := Nat.pos_pow_of_pos _ (by norm_num)
    have hle : counterState w k + 1 ≤ 2 ^ max w 1 := by
      have h2 : 2 ^ w ≤ 2 ^ max w 1 :=
        Nat.pow_le_pow_right (by norm_num) (le_max_left _ _)
      have h3 : counterState w k < 2 ^ w := by
        rw [counterState_eq_mod]
        exact Nat.mod_lt _ (Nat.pos_pow_of_pos _ (by norm_num))
      omega
    have hlt : counterState w k + 1 < 2 ^ (max w 1 + 1) := by
      have : (2 : Nat) ^ (max w 1 + 1) = 2 ^ max w 1 * 2 := by ring
      omega
    simp only [counterState, counterNext, wvAdd, truncate]
    rw [Nat.mod_eq_of_lt hlt]

/-- Witness for C3 (amended): a width-2 counter over 4 cycles traces 0,1,2,3. -/
theorem counter_trace_eq_range_witness :
    counterTrace 2 4 = List.range 4 ∧
    (∀ k, (counterTrace 2 4).getD k 0 = counterState 2 k ∨ 4 ≤ k) ∧
    (∀ k, counterState 2 (k + 1) = truncate 2 (counterState 2 k + 1)) :=
  counter_trace_eq_range 2 4 (by decide)

/-- Modelled from the spec: a Signal's role — "plain wire, circuit input,
circuit output, register state, constant". -/
inductive Role where
  | wire
  | input
  | output
  | registerState
  | constant (v : Nat)
  deriving DecidableEq, Repr

/-- Modelled from the spec: a Signal record owned by the Circuit Graph — a
unique id handle, an optional bitwidth ("inferred if omitted"), and a role
fixed at creation. -/
structure Signal where
  id : Nat
  width? : Option Nat
  role : Role
  deriving DecidableEq, Repr

/-- Modelled from the spec: the operator tag of an Operator Node. -/
inductive OpTag where
  | and
  | or
  | xor
  | add
  | eq
  | w
  deriving DecidableEq, Repr

/-- Modelled from the spec: an Operator Node — an operator tag, an ordered
list of input Signal ids, and exactly one output Signal id. -/
structure GNode where
  op : OpTag
  ins : List Nat
  out : Nat
  deriving DecidableEq, Repr

/-- Modelled from the spec: the Circuit Graph — the single authoritative
store of Signals and Operator Nodes, with a monotonically increasing counter
used to issue fresh unique Signal handles. -/
structure Graph where
  counter : Nat
  sigs : List Signal
  nodes : List GNode
  deriving DecidableEq, Repr

/-- The width a Signal currently has in the graph, by id. -/
def lookupWidth (g : Graph) (i : Nat) : Option Nat :=
  (g.sigs.find? (fun s => s.id == i)).bind (fun s => s.width?)

/-- Modelled from the spec: declaring a Signal allocates a fresh id from the
graph's counter and records the Signal; the bitwidth may be omitted. -/
def declareSignal (g : Graph) (w? : Option Nat) (r : Role) : Signal × Graph :=
  (⟨g.counter, w?, r⟩, ⟨g.counter + 1, g.sigs ++ [⟨g.counter, w?, r⟩], g.nodes⟩)

/-- Modelled from the spec: the inferred output width of each operator class —
bitwise ops take the max of the input widths, addition adds one bit for the
carry, comparisons are one bit. -/
def opWidth (t : OpTag) (w1 w2 : Nat) : Nat :=
  match t with
  | .and | .or | .xor => max w1 w2
  | .add => max w1 w2 + 1
  | .eq => 1
  | .w => w1

/-- Modelled from the spec: the Expression Builder — combining two Signals
with an operator allocates a fresh output Signal and an Operator Node in the
Circuit Graph and returns the new Signal's id. -/
def applyBinOp (g : Graph) (t : OpTag) (x y : Nat) : Nat × Graph :=
  let wout : Option Nat :=
    match lookupWidth g x, lookupWidth g y with
    | some w1, some w2 => some (opWidth t w1 w2)
    | _, _ => none
  (g.counter,
   ⟨g.counter + 1,
    g.sigs ++ [⟨g.counter, wout, Role.wire⟩],
    g.nodes ++ [⟨t, [x, y], g.counter⟩]⟩)

/-- Modelled from the spec: the connection operator `<<=` — it takes an
existing destination Signal and a source Signal and adds a node making the
destination alias the source every cycle; the destination Signal keeps its
identity, only its driver changes, and a destination declared without a
bitwidth has its bitwidth inferred from the source.  `connectUpd` is the
per-Signal record update: only the destination, and only when its bitwidth
was omitted, gets the source's width filled in. -/
def connectUpd (g : Graph) (dest src : Nat) (s : Signal) : Signal :=
  if s.id = dest ∧ s.width? = none then ⟨s.id, lookupWidth g src, s.role⟩ else s

/-- The connection operator `<<=` on the Circuit Graph; see `connectUpd`. -/
def connect (g : Graph) (dest src : Nat) : Graph :=
  { counter := g.counter
    sigs := g.sigs.map (connectUpd g dest src)
    nodes := g.nodes ++ [⟨OpTag.w, [src], dest⟩] }

/-- A well-formed graph issues every Signal id below its counter, so fresh
ids are really fresh. -/
def Graph.WF (g : Graph) : Prop := ∀ s ∈ g.sigs, s.id < g.counter

theorem connect_sig_ids (g : Graph) (dest src : Nat) :
    (connect g dest src).sigs.map Signal.id = g.sigs.map Signal.id := by
  simp only [connect, List.map_map]
  apply List.map_congr_left
  intro s _
  by_cases hcond : s.id = dest ∧ s.width? = none <;> simp [connectUpd, hcond]

/-- C6: the connection operator `<<=` preserves the destination Signal's
identity — after `dest <<= src` the graph holds the same Signal ids and the
only change is a new driver node for `dest` appended to the node history —
whereas applying an operator (ordinary assignment of its result to a reused
Python variable) allocates a distinct fresh Signal, different from every
existing Signal, while the previously constructed signals and the graph node
history stay intact. -/
theorem connect_vs_assignment (g : Graph) (dest src : Nat) (t : OpTag) (x y : Nat)
    (hwf : g.WF) :
    (connect g dest src).sigs.map Signal.id = g.sigs.map Signal.id ∧
    (connect g dest src).nodes = g.nodes ++ [⟨OpTag.w, [src], dest⟩] ∧
    (∀ s ∈ g.sigs, (applyBinOp g t x y).1 ≠ s.id) ∧
    (applyBinOp g t x y).2.sigs.map Signal.id
      = g.sigs.map Signal.id ++ [(applyBinOp g t x y).1] ∧
    (applyBinOp g t x y).2.nodes = g.nodes ++ [⟨t, [x, y], g.counter⟩] := by
  refine ⟨connect_sig_ids g dest src, rfl, ?_, ?_, rfl⟩
  · intro s hs
    have := hwf s hs
    simp only [applyBinOp]
    omega
  · simp [applyBinOp]

/-- Witness for C6: in the two-signal graph holding ids 0 and 1, connecting
0 from 1 keeps both ids and appends one `w` node, while an AND of 0 and 1
allocates the fresh id 2. -/
theorem connect_vs_assignment_witness :
    (connect ⟨2, [⟨0, some 1, Role.output⟩, ⟨1, some 1, Role.wire⟩], []⟩ 0 1).sigs.map
        Signal.id
      = ([⟨0, some 1, Role.output⟩, ⟨1, some 1, Role.wire⟩] : List Signal).map Signal.id ∧
    (connect ⟨2, [⟨0, some 1, Role.output⟩, ⟨1, some 1, Role.wire⟩], []⟩ 0 1).nodes
      = [] ++ [⟨OpTag.w, [1], 0⟩] ∧
    (∀ s ∈ ([⟨0, some 1, Role.output⟩, ⟨1, some 1, Role.wire⟩] : List Signal),
      (applyBinOp ⟨2, [⟨0, some 1, Role.output⟩, ⟨1, some 1, Role.wire⟩], []⟩
        OpTag.and 0 1).1 ≠ s.id) ∧
    (applyBinOp ⟨2, [⟨0, some 1, Role.output⟩, ⟨1, some 1, Role.wire⟩], []⟩
        OpTag.and 0 1).2.sigs.map Signal.id
      = ([⟨0, some 1, Role.output⟩, ⟨1, some 1, Role.wire⟩] : List Signal).map Signal.id
        ++ [(applyBinOp ⟨2, [⟨0, some 1, Role.output⟩, ⟨1, some 1, Role.wire⟩], []⟩
              OpTag.and 0 1).1] ∧
    (applyBinOp ⟨2, [⟨0, some 1, Role.output⟩, ⟨1, some 1, Role.wire⟩], []⟩
        OpTag.and 0 1).2.nodes
      = [] ++ [⟨OpTag.and, [0, 1], 2⟩] :=
  connect_vs_assignment ⟨2, [⟨0, some 1, Role.output⟩, ⟨1, some 1, Role.wire⟩], []⟩
    0 1 OpTag.and 0 1 (by intro s hs; fin_cases hs <;> simp)

/-- C8: a Signal declared without a bitwidth has its bitwidth inferred — an
Output declared with no bitwidth (its recorded width is `none`) and then
driven via `<<=` by an expression whose width is 1 ends up with bitwidth 1 in
the Circuit Graph. -/
theorem output_width_inferred (g : Graph) (src : Nat) (hwf : g.WF)
    (hsrc : lookupWidth g src = some 1) :
    (declareSignal g none Role.output).1.width? = none ∧
    lookupWidth
      (connect (declareSignal g none Role.output).2
        (declareSignal g none Role.output).1.id src)
      (declareSignal g none Role.output).1.id = some 1 := by
  refine ⟨rfl, ?_⟩
  obtain ⟨s0, hfind, hw⟩ :
      ∃ s0, g.sigs.find? (fun s => s.id == src) = some s0 ∧ s0.width? = some 1 := by
    unfold lookupWidth at hsrc
    cases hf : g.sigs.find? (fun s => s.id == src) with
    | none => rw [hf] at hsrc; simp at hsrc
    | some s0 =>
        rw [hf] at hsrc
        exact ⟨s0, rfl, by simpa using hsrc⟩
  have hl1 : lookupWidth (declareSignal g none Role.output).2 src = some 1 := by
    unfold lookupWidth declareSignal
    simp only [List.find?_append, hfind, Option.or]
    simpa using hw
  have hmap : g.sigs.map
      (connectUpd (declareSignal g none Role.output).2 g.counter src) = g.sigs := by
    conv_rhs => rw [← List.map_id g.sigs]
    apply List.map_congr_left
    intro s hs
    have hlt := hwf s hs
    have hcond : ¬ (s.id = g.counter ∧ s.width? = none) := by
      rintro ⟨h1, _⟩; omega
    simp [connectUpd, hcond]
  have hnew : (([⟨g.counter, none, Role.output⟩] : List Signal).map
      (connectUpd (declareSignal g none Role.output).2 g.counter src))
      = [⟨g.counter, some 1, Role.output⟩] := by
    simp [connectUpd, hl1]
  have hnone : g.sigs.find? (fun s => s.id == g.counter) = none := by
    rw [List.find?_eq_none]
    intro s hs
    have := hwf s hs
    simp only [beq_iff_eq]
    omega
  have hg2 : connect (declareSignal g none Role.output).2
        (declareSignal g none Role.output).1.id src
      = ⟨g.counter + 1, g.sigs ++ [⟨g.counter, some 1, Role.output⟩],
         g.nodes ++ [⟨OpTag.w, [src], g.counter⟩]⟩ := by
    show Graph.mk (g.counter + 1)
        ((g.sigs ++ [Signal.mk g.counter none Role.output]).map
          (connectUpd (declareSignal g none Role.output).2 g.counter src))
        (g.nodes ++ [GNode.mk OpTag.w [src] g.counter])
      = Graph.mk (g.counter + 1)
          (g.sigs ++ [Signal.mk g.counter (some 1) Role.output])
          (g.nodes ++ [GNode.mk OpTag.w [src] g.counter])
    rw [List.map_append, hmap, hnew]
  rw [hg2]
  show ((g.sigs ++ [Signal.mk g.counter (some 1) Role.output]).find?
      (fun s => s.id == g.counter)).bind (fun s => s.width?) = some 1
  rw [List.find?_append, hnone]
  simp [Option.or]

/-- Witness for C8: in a one-signal graph whose signal 0 has width 1,
declaring a widthless Output and driving it from signal 0 gives it width 1. -/
theorem output_width_inferred_witness :
    (declareSignal ⟨1, [⟨0, some 1, Role.input⟩], []⟩ none Role.output).1.width? = none ∧
    lookupWidth
      (connect (declareSignal ⟨1, [⟨0, some 1, Role.input⟩], []⟩ none Role.output).2
        (declareSignal ⟨1, [⟨0, some 1, Role.input⟩], []⟩ none Role.output).1.id 0)
      (declareSignal ⟨1, [⟨0, some 1, Role.input⟩], []⟩ none Role.output).1.id = some 1 :=
  output_width_inferred ⟨1, [⟨0, some 1, Role.input⟩], []⟩ 0
    (by intro s hs; fin_cases hs; simp) (by decide)

/-- Modelled from the spec: a combinational Operator Node as seen by the
Scheduler and the Simulation Engine — its output signal id, its ordered input
signal ids, its operator tag, and the declared width of its output. -/
structure CNode where
  out : Nat
  ins : List Nat
  op : OpTag
  width : Nat
  deriving DecidableEq, Repr

/-- Modelled from the spec: each operator's pure value semantics on the
already-known input values. -/
def applyTag (t : OpTag) (vs : List Nat) : Nat :=
  match t, vs with
  | .and, [a, b] => a &&& b
  | .or, [a, b] => a ||| b
  | .xor, [a, b] => a ^^^ b
  | .add, [a, b] => a + b
  | .eq, [a, b] => if a = b then 1 else 0
  | .w, [a] => a
  | _, _ => 0

/-- Point update of a signal-value environment. -/
def upd (env : Nat → Nat) (k v : Nat) : Nat → Nat :=
  fun x => if x = k then v else env x

/-- Modelled from the spec: evaluating one combinational node writes its
output's value — the operator applied to the inputs' current values,
truncated to the declared width — into the environment. -/
def evalNode (env : Nat → Nat) (n : CNode) : Nat → Nat :=
  upd env n.out (truncate n.width (applyTag n.op (n.ins.map env)))

/-- Modelled from the spec: executing an evaluation order node by node. -/
def evalList (env : Nat → Nat) : List CNode → (Nat → Nat)
  | [] => env
  | n :: ns => evalList (evalNode env n) ns

/-- Modelled from the spec: a circuit as the Simulation Engine sees it — the
declared Input signals (id and bitwidth), the Scheduler's evaluation order
over the combinational nodes, and the signal ids recorded into the trace. -/
structure Circuit where
  inputs : List (Nat × Nat)
  sched : List CNode
  traced : List Nat
  deriving DecidableEq, Repr

/-- The Trace Store: one list of traced-signal values per completed cycle,
append-only, indexed by cycle number. -/
structure EngState where
  trace : List (List Nat)
  deriving DecidableEq, Repr

/-- Modelled from the spec: the error taxonomy's per-step failure. -/
inductive SimError where
  | inputError
  deriving DecidableEq, Repr

/-- Modelled from the spec: one step() call — constraint check first ("every
declared Input Signal must have a supplied value whose magnitude fits its
bitwidth; violation fails with an Input Error and no state is advanced"),
then evaluation of the schedule and appending of one trace record. -/
def step (c : Circuit) (st : EngState) (provided : List (Nat × Nat)) :
    EngState × Option SimError :=
  if c.inputs.all (fun p =>
      match provided.lookup p.1 with
      | some v => decide (v < 2 ^ p.2)
      | none => false)
  then
    let env := evalList (fun i => ((provided.lookup i).getD 0)) c.sched
    ({ trace := st.trace ++ [c.traced.map env] }, none)
  else (st, some SimError.inputError)

/-- C7: calling step() with a mapping that is missing a value for a declared
Input Signal, or supplies one that does not fit its bitwidth, fails with an
Input Error, no state is advanced, and the Trace Store is left unchanged —
no partial cycle is recorded (the trace length is unchanged) and prior
cycles' trace values are not corrupted (the whole store is untouched). -/
theorem step_input_error (c : Circuit) (st : EngState) (provided : List (Nat × Nat))
    (h : ∃ p ∈ c.inputs, (provided.lookup p.1).elim True (fun v => 2 ^ p.2 ≤ v)) :
    (step c st provided).2 = some SimError.inputError ∧
    (step c st provided).1 = st ∧
    (step c st provided).1.trace = st.trace := by
  have hne : ¬ (c.inputs.all (fun p =>
      match provided.lookup p.1 with
      | some v => decide (v < 2 ^ p.2)
      | none => false) = true) := by
    intro hall
    rw [List.all_eq_true] at hall
    obtain ⟨p, hp, hbad⟩ := h
    have hfp := hall p hp
    cases hl : provided.lookup p.1 with
    | none => rw [hl] at hfp; simp at hfp
    | some v =>
        rw [hl] at hfp
        rw [hl] at hbad
        simp only [Option.elim] at hbad
        simp only [decide_eq_true_eq] at hfp
        omega
  refine ⟨?_, ?_, ?_⟩ <;> simp [step, hne]

/-- Witness for C7: a circuit declaring the 1-bit Input 0, stepped with an
empty mapping from a one-cycle trace, errors and leaves the trace alone. -/
theorem step_input_error_witness :
    (step ⟨[(0, 1)], [], [0]⟩ ⟨[[1]]⟩ []).2 = some SimError.inputError ∧
    (step ⟨[(0, 1)], [], [0]⟩ ⟨[[1]]⟩ []).1 = ⟨[[1]]⟩ ∧
    (step ⟨[(0, 1)], [], [0]⟩ ⟨[[1]]⟩ []).1.trace = (⟨[[1]]⟩ : EngState).trace :=
  step_input_error ⟨[(0, 1)], [], [0]⟩ ⟨[[1]]⟩ []
    ⟨(0, 1), by simp, by simp [List.lookup]⟩

/-- Modelled from the spec: a valid evaluation order relative to a set of
already-known signals (the circuit Inputs, RegisterState and Memory-read
values, which are sources) — every node appears after all nodes producing its
inputs, and each signal is produced by exactly one node (single static
assignment). -/
def ValidOrder (known : List Nat) : List CNode → Prop
  | [] => True
  | n :: ns => (∀ i ∈ n.ins, i ∈ known) ∧ n.out ∉ known ∧ ValidOrder (n.out :: known) ns

theorem validOrder_congr {K K2 : List Nat} (l : List CNode)
    (h : ∀ x, x ∈ K ↔ x ∈ K2) (hv : ValidOrder K l) : ValidOrder K2 l := by
  induction l generalizing K K2 with
  | nil => trivial
  | cons n ns ih =>
      obtain ⟨h1, h2, h3⟩ := hv
      refine ⟨fun i hi => (h i).mp (h1 i hi), fun hm => h2 ((h n.out).mpr hm), ?_⟩
      exact ih (fun x => by simp [h x]) h3

theorem validOrder_out_notmem {K : List Nat} {l : List CNode}
    (hv : ValidOrder K l) : ∀ p ∈ l, p.out ∉ K := by
  induction l generalizing K with
  | nil => intro p hp; cases hp
  | cons n ns ih =>
      obtain ⟨_, h2, h3⟩ := hv
      intro p hp
      rcases List.mem_cons.mp hp with h | h
      · exact h ▸ h2
      · exact fun hm => ih h3 p h (List.mem_cons_of_mem _ hm)

theorem evalNode_comm (env : Nat → Nat) (m n : CNode)
    (h1 : m.out ∉ n.ins) (h2 : n.out ∉ m.ins) (h3 : m.out ≠ n.out) :
    evalNode (evalNode env m) n = evalNode (evalNode env n) m := by
  have hn : n.ins.map (evalNode env m) = n.ins.map env := by
    apply List.map_congr_left
    intro i hi
    have hne : i ≠ m.out := fun he => h1 (he ▸ hi)
    simp [evalNode, upd, hne]
  have hm : m.ins.map (evalNode env n) = m.ins.map env := by
    apply List.map_congr_left
    intro i hi
    have hne : i ≠ n.out := fun he => h2 (he ▸ hi)
    simp [evalNode, upd, hne]
  funext x
  simp only [evalNode, upd] at hn hm ⊢
  rw [hn, hm]
  by_cases hx1 : x = n.out
  · by_cases hx2 : x = m.out
    · exact absurd (by rw [← hx2, hx1]) h3
    · simp [hx1, hx2, Ne.symm h3]
  · by_cases hx2 : x = m.out <;> simp [hx1, hx2, h3]

theorem evalList_pull (n : CNode) (l : List CNode) :
    ∀ (known : List Nat) (env : Nat → Nat),
      ValidOrder known l → n ∈ l → (∀ i ∈ n.ins, i ∈ known) → n.out ∉ known →
      evalList env l = evalList (evalNode env n) (l.erase n) ∧
      ValidOrder (n.out :: known) (l.erase n) := by
  induction l with
  | nil => intro known env _ hn; cases hn
  | cons m l2 ih =>
      intro known env hv hn hins hout
      obtain ⟨hm_ins, hm_out, hvl2⟩ := hv
      by_cases hmn : m = n
      · subst hmn
        rw [List.erase_cons_head]
        exact ⟨rfl, hvl2⟩
      · have hn2 : n ∈ l2 := by
          rcases List.mem_cons.mp hn with h | h
          · exact absurd h.symm hmn
          · exact h
        have hno : n.out ∉ m.out :: known := validOrder_out_notmem hvl2 n hn2
        have hnom : n.out ≠ m.out := fun he => hno (by simp [he])
        have hnok : n.out ∉ known := fun he => hno (by simp [he])
        obtain ⟨heq, hval⟩ := ih (m.out :: known) (evalNode env m) hvl2 hn2
          (fun i hi => List.mem_cons_of_mem _ (hins i hi)) hno
        have hcomm : evalNode (evalNode env m) n = evalNode (evalNode env n) m :=
          evalNode_comm env m n (fun hmem => hm_out (hins _ hmem))
            (fun hmem => hnok (hm_ins _ hmem)) (Ne.symm hnom)
        have herase : (m :: l2).erase n = m :: l2.erase n :=
          List.erase_cons_tail (by simpa using hmn)
        constructor
        · show evalList (evalNode env m) l2 = evalList (evalNode env n) ((m :: l2).erase n)
          rw [heq, hcomm, herase]
          rfl
        · rw [herase]
          refine ⟨fun i hi => List.mem_cons_of_mem _ (hm_ins i hi), ?_, ?_⟩
          · intro hmem
            rcases List.mem_cons.mp hmem with h | h
            · exact hnom h.symm
            · exact hm_out h
          · exact validOrder_congr _ (fun x => by simp; tauto) hval

theorem evalList_perm (l1 : List CNode) :
    ∀ (l2 : List CNode) (known : List Nat) (env : Nat → Nat),
      l1.Perm l2 → ValidOrder known l1 → ValidOrder known l2 →
      evalList env l1 = evalList env l2 := by
  induction l1 with
  | nil =>
      intro l2 known env hperm _ _
      rw [hperm.symm.eq_nil]
  | cons n l1 ih =>
      intro l2 known env hperm hv1 hv2
      obtain ⟨hn2, hperm2⟩ := List.cons_perm_iff_perm_erase.mp hperm
      obtain ⟨hins, hout, hv1t⟩ := hv1
      obtain ⟨heq, hval⟩ := evalList_pull n l2 known env hv2 hn2 hins hout
      rw [heq]
      exact ih (l2.erase n) (n.out :: known) (evalNode env n) hperm2 hv1t hval

/-- C9: simulation is deterministic — stepping two simulation engines over
the same circuit (same declared Inputs, same traced signals, the same set of
combinational nodes) with the same supplied input values yields identical
results, even if the two runs evaluate the nodes in different (valid)
orders: any two dependency-respecting evaluation orders of the same node set
compute identical signal values, so however the scheduler breaks ties (by
Signal creation order in the implementation) the traces agree for every
signal on every cycle. -/
theorem simulation_deterministic (c1 c2 : Circuit) (st : EngState)
    (provided : List (Nat × Nat)) (known : List Nat)
    (hin : c1.inputs = c2.inputs) (htr : c1.traced = c2.traced)
    (hperm : c1.sched.Perm c2.sched)
    (hv1 : ValidOrder known c1.sched) (hv2 : ValidOrder known c2.sched) :
    step c1 st provided = step c2 st provided := by
  have henv : evalList (fun i => ((provided.lookup i).getD 0)) c1.sched
      = evalList (fun i => ((provided.lookup i).getD 0)) c2.sched :=
    evalList_perm c1.sched c2.sched known _ hperm hv1 hv2
  simp only [step, hin, htr, henv]

/-- Witness for C9: a two-node circuit (two independent wires of input 0)
scheduled in either order steps to the same engine state and trace. -/
theorem simulation_deterministic_witness :
    step ⟨[(0, 1)], [CNode.mk 10 [0] OpTag.w 1, CNode.mk 11 [0] OpTag.w 1], [10, 11]⟩
        ⟨[]⟩ [(0, 1)]
      = step ⟨[(0, 1)], [CNode.mk 11 [0] OpTag.w 1, CNode.mk 10 [0] OpTag.w 1], [10, 11]⟩
        ⟨[]⟩ [(0, 1)] :=
  simulation_deterministic
    ⟨[(0, 1)], [CNode.mk 10 [0] OpTag.w 1, CNode.mk 11 [0] OpTag.w 1], [10, 11]⟩
    ⟨[(0, 1)], [CNode.mk 11 [0] OpTag.w 1, CNode.mk 10 [0] OpTag.w 1], [10, 11]⟩
    ⟨[]⟩ [(0, 1)] [0] rfl rfl
    (List.Perm.swap (CNode.mk 11 [0] OpTag.w 1) (CNode.mk 10 [0] OpTag.w 1) [])
    (by simp [ValidOrder]) (by simp [ValidOrder])

end PyRTL
